import Mathlib

/-!
# Verification of the spead2 chunk stream group

A shallow embedding of `recv_chunk_stream_group.h` (src/unnamed/part_000) and of
the operations it declares. Declarations that are implemented in the header
(`emplace_back`, `adjust_group_config`, `chunk_stream_ring_group::stop`, the
configuration defaults) are translated directly from that source. Operations
that the header only declares (`chunk_window`, `get_chunk`, `release_chunk`,
`stop`, `set_max_chunks`, the member constructor, `async_flush_until`) are
modelled from the specification, as noted on each definition.
-/

set_option linter.unusedVariables false

namespace Spead2

/-! ## Configuration (part_000 lines 39-89) -/

/-- Eviction mode when it is necessary to advance the group window
(part_000 lines 51-55). -/
inductive EvictionMode
  | LOSSY
  | LOSSLESS
deriving DecidableEq, Repr

/-- Model of a `chunk_allocate_function` value: empty (default-constructed), a
user-supplied callback (identified abstractly), or the free-ring pop installed
by the ring facade. -/
inductive AllocFn
  | empty
  | user (id : Nat)
  | ringPop
deriving DecidableEq, Repr

/-- Model of a `chunk_ready_function` value: empty (default-constructed), a
user-supplied callback (identified abstractly), or the ring facade's wrapper,
which pushes to the data ring and retains the wrapped original callback. -/
inductive ReadyFn
  | empty
  | user (id : Nat)
  | ringWrap (inner : ReadyFn)
deriving DecidableEq, Repr

/-- Modelled from the spec: value of `chunk_stream_config::default_max_chunks`
(referenced at part_000 line 44; the defining header is not in src; the spec
gives the default as 2). -/
def default_max_chunks : Nat := 2

/-- `chunk_stream_group_config` (part_000 lines 40-89): `max_chunks` defaults to
`default_max_chunks` (line 58) and the eviction mode defaults to LOSSY
(line 59). `allocate`/`ready` are default-constructed (empty) functions. -/
structure chunk_stream_group_config where
  max_chunks : Nat := default_max_chunks
  eviction_mode : EvictionMode := EvictionMode.LOSSY
  allocate : AllocFn := AllocFn.empty
  ready : ReadyFn := ReadyFn.empty
deriving DecidableEq, Repr

/-- A default-constructed `chunk_stream_group_config`. -/
def default_config : chunk_stream_group_config := {}

/-- Modelled from the spec: `set_max_chunks` (declared at part_000 line 71, with
the documented behaviour "throw std::invalid_argument if max_chunks is 0" at
line 69; the implementation file is not in src). -/
def chunk_stream_group_config.set_max_chunks
    (cfg : chunk_stream_group_config) (n : Nat) :
    Except String chunk_stream_group_config :=
  if n = 0 then Except.error "max_chunks cannot be 0"
  else Except.ok { cfg with max_chunks := n }

/-- `set_eviction_mode` (part_000 line 76). -/
def chunk_stream_group_config.set_eviction_mode
    (cfg : chunk_stream_group_config) (m : EvictionMode) :
    chunk_stream_group_config :=
  { cfg with eviction_mode := m }

/-- `set_allocate` (part_000 line 81). -/
def chunk_stream_group_config.set_allocate
    (cfg : chunk_stream_group_config) (f : AllocFn) :
    chunk_stream_group_config :=
  { cfg with allocate := f }

/-- `set_ready` (part_000 line 86). -/
def chunk_stream_group_config.set_ready
    (cfg : chunk_stream_group_config) (f : ReadyFn) :
    chunk_stream_group_config :=
  { cfg with ready := f }

/-- `get_ready` (part_000 line 88). -/
def chunk_stream_group_config.get_ready (cfg : chunk_stream_group_config) :
    ReadyFn :=
  cfg.ready

/-! ## Chunks and the chunk window -/

/-- The parts of a `chunk` that the group manages: its id and its embedded
reference count (spec section 3; the chunk class itself is declared in
`recv_chunk_stream.h`, which is not in src). -/
structure chunk where
  chunk_id : Int
  ref_count : Nat
deriving DecidableEq, Repr

/-- Modelled from the spec: `detail::chunk_window` (used at part_000 line 143;
its definition is in `recv_chunk_stream.h`, which is not in src). A circular
buffer of nullable chunk slots; the slot for id `c` is `chunks[c mod capacity]`,
and the window tracks `head_chunk` (the spec's `head_id`) and `tail_chunk`. -/
structure chunk_window where
  slots : List (Option chunk)
  head_chunk : Int
  tail_chunk : Int
deriving DecidableEq, Repr

/-- Number of slots of the window (`max_chunks`). -/
def chunk_window.capacity (w : chunk_window) : Nat := w.slots.length

/-- Index of the slot for chunk id `c`: `c mod capacity`. -/
def chunk_window.slot_index (w : chunk_window) (c : Int) : Nat :=
  (c % (w.capacity : Int)).toNat

/-- Contents of the slot for chunk id `c` (null when out of range). -/
def chunk_window.slot (w : chunk_window) (c : Int) : Option chunk :=
  w.slots.getD (w.slot_index c) none

/-- Modelled from the spec: `lookup(c)` returns the slot for `c` when
`head_id ≤ c < tail_id`, else null (spec section 4.1). -/
def chunk_window.lookup (w : chunk_window) (c : Int) : Option chunk :=
  if w.head_chunk ≤ c ∧ c < w.tail_chunk then w.slot c else none

/-- Modelled from the spec: evict the chunk at the head of the window (clear its
slot) and advance `head_chunk` by one, returning the displaced chunk if any. -/
def chunk_window.flush_head (w : chunk_window) : Option chunk × chunk_window :=
  let idx := w.slot_index w.head_chunk
  (w.slots.getD idx none,
   { w with slots := w.slots.set idx none, head_chunk := w.head_chunk + 1 })

/-- Advance the head of the window `n` times, collecting the displaced chunks in
ascending id order. -/
def chunk_window.flush_n : chunk_window → Nat → List chunk × chunk_window
  | w, 0 => ([], w)
  | w, n + 1 =>
    let step1 := w.flush_head
    let rest := chunk_window.flush_n step1.2 n
    (step1.1.toList ++ rest.1, rest.2)

/-- Modelled from the spec: `flush_until(c)` raises `head_id` to
`min(c, tail_id)` and returns the displaced chunks in ascending id order
(spec section 4.1). -/
def chunk_window.flush_until (w : chunk_window) (c : Int) :
    List chunk × chunk_window :=
  chunk_window.flush_n w ((min c w.tail_chunk) - w.head_chunk).toNat

/-- Modelled from the spec: `extend_to(c)` ensures `tail_id > c` by advancing
`tail_id`; if `tail_id − head_id` would exceed the capacity, it advances
`head_id` first and collects the displaced chunks. Newly exposed slots are null
(spec section 4.1). -/
def chunk_window.extend_to (w : chunk_window) (c : Int) :
    List chunk × chunk_window :=
  if c < w.tail_chunk then ([], w)
  else
    let new_head := max w.head_chunk (c + 1 - (w.capacity : Int))
    let flushed := chunk_window.flush_n w (new_head - w.head_chunk).toNat
    (flushed.1, { flushed.2 with tail_chunk := c + 1 })

/-- Chunks currently held in the window's slots. -/
def windowChunks (w : chunk_window) : List chunk := w.slots.filterMap id

/-- Ids of the chunks currently held in the window's slots. -/
def windowIds (w : chunk_window) : List Int :=
  (windowChunks w).map chunk.chunk_id

/-- Slot consistency: every non-null slot `i` holds a chunk whose id lies in
`[head_chunk, tail_chunk)` and whose slot index is `i`. -/
def chunk_window.slots_ok (w : chunk_window) : Prop :=
  ∀ i ch, w.slots.getD i none = some ch →
    w.head_chunk ≤ ch.chunk_id ∧ ch.chunk_id < w.tail_chunk ∧
    w.slot_index ch.chunk_id = i

/-- Intermediate window invariant (the head may temporarily pass the tail while
flushing): positive capacity, window span at most the capacity, and slot
consistency. -/
def chunk_window.pre_wf (w : chunk_window) : Prop :=
  0 < w.capacity ∧ w.tail_chunk - w.head_chunk ≤ (w.capacity : Int) ∧ w.slots_ok

/-- Full window invariant (spec section 3): positive capacity,
`0 ≤ tail_id − head_id ≤ max_chunks`, and slot consistency. -/
def chunk_window.wf (w : chunk_window) : Prop :=
  0 < w.capacity ∧ w.head_chunk ≤ w.tail_chunk ∧
  w.tail_chunk - w.head_chunk ≤ (w.capacity : Int) ∧ w.slots_ok

/-! ## Group chunk manager state

Modelled from the spec (sections 4.2-4.3): the implementation file defining
`chunk_stream_group::get_chunk`, `release_chunk`, `ready_chunk` and `stop`
(declared at part_000 lines 158-183 and 273-278) is not in src. The state
records the window, the ids passed to the ready callback in delivery order, the
FIFO of evicted chunks whose reference count has not yet reached zero, and the
ids for which the allocate callback has been invoked. -/

structure group_state where
  window : chunk_window
  readyIds : List Int
  pending : List chunk
  allocatedIds : List Int
deriving DecidableEq, Repr

/-- Decrement a chunk's reference count. -/
def dec_ref (ch : chunk) : chunk := { ch with ref_count := ch.ref_count - 1 }

/-- Deliver, from the front of the pending FIFO, every chunk whose reference
count has reached zero, stopping at the first chunk still referenced. This
enforces the monotone `ready_id` discipline of spec section 4.2. Returns the
delivered chunks and the remaining queue. -/
def drain_pending : List chunk → List chunk × List chunk
  | [] => ([], [])
  | ch :: rest =>
    if ch.ref_count = 0 then
      let d := drain_pending rest
      (ch :: d.1, d.2)
    else ([], ch :: rest)

/-- Modelled from the spec: steps 5-6 of `get_chunk` (spec section 4.2). In the
window `w1` (already extended past `c`), if the slot for `c` is null, invoke the
configured allocate callback to obtain a fresh chunk with `chunk_id = c` and
install it; then increment the chunk's reference count. Returns the chunk, the
updated window, and whether the allocate callback was invoked. -/
def install_chunk (w1 : chunk_window) (c : Int) : chunk × chunk_window × Bool :=
  match w1.slots.getD (w1.slot_index c) none with
  | some ch =>
    let ch' : chunk := { ch with ref_count := ch.ref_count + 1 }
    (ch', { w1 with slots := w1.slots.set (w1.slot_index c) (some ch') }, false)
  | none =>
    let ch' : chunk := { chunk_id := c, ref_count := 1 }
    (ch', { w1 with slots := w1.slots.set (w1.slot_index c) (some ch') }, true)

/-- Modelled from the spec: `get_chunk(c, stream_id, batch_stats)` (declared at
part_000 line 167; behaviour from spec section 4.2 steps 1-8). Under the group
mutex: return null if `c` is too old; otherwise extend the window via
`extend_to`, append evicted chunks to the pending FIFO, allocate a fresh chunk
via the configured allocate callback when the slot is null (recorded in
`allocatedIds`), increment the chunk's reference count, deliver cleared evicted
chunks to the ready path, and return the chunk. -/
def group_state.get_chunk (st : group_state) (c : Int) :
    Option chunk × group_state :=
  if c < st.window.head_chunk then (none, st)
  else
    let ext := st.window.extend_to c
    let evicted := ext.1
    let w1 := ext.2
    let inst := install_chunk w1 c
    let drained := drain_pending (st.pending ++ evicted)
    (some inst.1,
     { window := inst.2.1,
       readyIds := st.readyIds ++ drained.1.map chunk.chunk_id,
       pending := drained.2,
       allocatedIds :=
         if inst.2.2 then st.allocatedIds ++ [c] else st.allocatedIds })

/-- Modelled from the spec: `release_chunk` (declared at part_000 line 177;
behaviour from spec section 4.2). Decrement the chunk's reference count; if the
chunk is still in the window nothing further happens, otherwise the pending
FIFO is drained from the front, delivering chunks in ascending id order. -/
def group_state.release_chunk (st : group_state) (c : Int) : group_state :=
  let w := st.window
  if w.head_chunk ≤ c ∧ c < w.tail_chunk then
    match w.slots.getD (w.slot_index c) none with
    | some ch =>
      { st with window :=
          { w with slots := w.slots.set (w.slot_index c) (some (dec_ref ch)) } }
    | none => st
  else
    let pending1 :=
      st.pending.map (fun ch => if ch.chunk_id = c then dec_ref ch else ch)
    let drained := drain_pending pending1
    { st with
      readyIds := st.readyIds ++ drained.1.map chunk.chunk_id,
      pending := drained.2 }

/-- Modelled from the spec: `chunk_stream_group::stop` (declared at part_000
lines 273-278; behaviour from spec section 4.3). Drains the window: every
remaining chunk is delivered to the ready path in ascending order regardless of
reference count, after the chunks already queued in the pending FIFO. -/
def group_state.stop (st : group_state) : group_state :=
  let flushed := chunk_window.flush_n st.window
    (st.window.tail_chunk - st.window.head_chunk).toNat
  { st with
    window := flushed.2,
    readyIds := st.readyIds ++ st.pending.map chunk.chunk_id ++
      flushed.1.map chunk.chunk_id,
    pending := [] }

/-- One observable operation on the group: a `get_chunk` or a `release_chunk`
issued by some member stream. -/
inductive GroupOp
  | get (c : Int)
  | rel (c : Int)
deriving DecidableEq, Repr

/-- Apply one operation to the group state. -/
def group_state.step (st : group_state) : GroupOp → group_state
  | GroupOp.get c => (st.get_chunk c).2
  | GroupOp.rel c => st.release_chunk c

/-- Apply a sequence of operations (an interleaving of `get_chunk` and
`release_chunk` calls, serialised by the group mutex). -/
def group_state.run (st : group_state) (ops : List GroupOp) : group_state :=
  ops.foldl group_state.step st

/-- The initial state of a freshly constructed group whose window has `cap`
slots (`cap` is the configuration's `max_chunks`). -/
def init_state (cap : Nat) : group_state :=
  { window := { slots := List.replicate cap none, head_chunk := 0, tail_chunk := 0 },
    readyIds := [], pending := [], allocatedIds := [] }

/-- The global invariant of the group chunk manager: the window is well formed;
the delivered ids, the pending FIFO and the window occupy disjoint ascending id
ranges (delivered < pending < head ≤ window); and the ids ever allocated are
exactly the delivered ids, the pending ids and the ids in the window, counted
with multiplicity. -/
structure group_inv (st : group_state) : Prop where
  wwf : st.window.wf
  ready_sorted : List.Pairwise (· < ·) st.readyIds
  pending_sorted : List.Pairwise (· < ·) (st.pending.map chunk.chunk_id)
  ready_lt_pending : ∀ r ∈ st.readyIds, ∀ p ∈ st.pending, r < p.chunk_id
  pending_lt_head : ∀ p ∈ st.pending, p.chunk_id < st.window.head_chunk
  ready_lt_head : ∀ r ∈ st.readyIds, r < st.window.head_chunk
  alloc_perm : (st.allocatedIds : Multiset Int) =
    (st.readyIds : Multiset Int) + ↑(st.pending.map chunk.chunk_id) +
    ↑(windowIds st.window)

/-! ## LOSSLESS eviction -/

/-- Apply one release notification: decrement the reference count of the
matching chunk. -/
def apply_release (cs : List chunk) (c : Int) : List chunk :=
  cs.map (fun ch => if ch.chunk_id = c then dec_ref ch else ch)

/-- Whether every chunk in the list has a zero reference count. -/
def all_released (cs : List chunk) : Bool :=
  cs.all (fun ch => ch.ref_count = 0)

/-- Modelled from the spec: the LOSSLESS wait of spec section 4.2 — the thread
driving the advancement waits on the ready condition variable, re-checking on
each notification, until every evicted chunk has reached a zero reference count
via normal release. `events` is the sequence of release notifications observed
while waiting; the result is the evicted chunks at the time the wait completes,
or none if the notifications run out before every count reaches zero. -/
def lossless_wait : List chunk → List Int → Option (List chunk)
  | evicted, [] => if all_released evicted then some evicted else none
  | evicted, e :: rest =>
    if all_released evicted then some evicted
    else lossless_wait (apply_release evicted e) rest

/-- Outcome of the LOSSLESS eviction step: which member streams were asked to
flush (by index), and the chunks handed to the ready path, if the wait
completed. -/
structure lossless_evict_result where
  flush_targets : List Nat
  delivered : Option (List chunk)
deriving DecidableEq, Repr

/-- Modelled from the spec: the LOSSLESS eviction step of a window advance
(spec section 4.2). If every evicted chunk is already unreferenced there is no
wait; otherwise, before waiting, the group instructs all other member streams
(every index except the requester's) to asynchronously flush, and then waits
until the evicted chunks' reference counts reach zero. -/
def lossless_evict (evicted : List chunk) (requester n_streams : Nat)
    (events : List Int) : lossless_evict_result :=
  if all_released evicted then { flush_targets := [], delivered := some evicted }
  else
    { flush_targets := (List.range n_streams).filter (fun i => i ≠ requester),
      delivered := lossless_wait evicted events }

/-- Modelled from the spec: the work posted by `async_flush_until(c)` (declared
at part_000 lines 306-312): release all the member's outstanding chunk
references whose id is strictly less than `c`. `held` is the multiset of chunk
ids the member holds references to; the result is the released ids and the
remaining held ids. -/
def member_flush_until (held : List Int) (c : Int) : List Int × List Int :=
  (held.filter (fun h => h < c), held.filter (fun h => ¬ h < c))

/-! ## Member streams and emplace_back (part_000 lines 281-291, 296-348) -/

/-- The part of `chunk_stream_config` that the member constructor inspects:
whether the place function has been set (see part_000 lines 330-331). -/
structure chunk_stream_config where
  place_set : Bool
deriving DecidableEq, Repr

/-- A member stream, as far as the group's bookkeeping observes it. -/
structure chunk_stream_group_member where
  chunk_config : chunk_stream_config
deriving DecidableEq, Repr

/-- Modelled from the spec: the `chunk_stream_group_member` constructor
(declared at part_000 lines 333-337) throws `std::invalid_argument` if the
place function in `chunk_config` has not been set (documented at part_000
lines 330-331; the implementation file is not in src). -/
def chunk_stream_group_member.construct (cc : chunk_stream_config) :
    Except String chunk_stream_group_member :=
  if cc.place_set then Except.ok { chunk_config := cc }
  else Except.error "chunk_config.place is not set"

/-- Observable hook invocations on the group. -/
inductive GroupEvent
  | streamAdded (index : Nat)
deriving DecidableEq, Repr

/-- The group's member-stream bookkeeping: the member collection,
`live_streams` (part_000 line 156), and the trace of hook invocations. -/
structure group_streams_state where
  streams : List chunk_stream_group_member
  live_streams : Nat
  events : List GroupEvent
deriving DecidableEq, Repr

/-- `chunk_stream_group::emplace_back` (part_000 lines 281-291): under the group
mutex, construct the new member (which may throw, leaving the group unchanged),
append it to `streams`, increment `live_streams`, invoke the `stream_added`
hook on it, and return a reference to it (here: its index). -/
def group_streams_state.emplace_back (g : group_streams_state)
    (cc : chunk_stream_config) : Except String Nat × group_streams_state :=
  match chunk_stream_group_member.construct cc with
  | Except.error e => (Except.error e, g)
  | Except.ok s =>
    (Except.ok g.streams.length,
     { streams := g.streams ++ [s],
       live_streams := g.live_streams + 1,
       events := g.events ++ [GroupEvent.streamAdded g.streams.length] })

/-! ## Ring-buffer facade (part_000 lines 350-456) -/

/-- `chunk_ring_pair::make_allocate`: pop from the free ring (part_000
line 409; the ring pair is defined in `recv_chunk_stream.h`, hence the value is
represented abstractly). -/
def make_allocate : AllocFn := AllocFn.ringPop

/-- `chunk_ring_pair::make_ready`: a wrapper that pushes to the data ring and
retains the original ready callback (part_000 line 410). -/
def make_ready (orig : ReadyFn) : ReadyFn := ReadyFn.ringWrap orig

/-- `chunk_stream_ring_group::adjust_group_config` (part_000 lines 403-412):
copy the configuration, replace `allocate` with the free-ring pop and `ready`
with the data-ring wrapper around the original ready callback. -/
def adjust_group_config (config : chunk_stream_group_config) :
    chunk_stream_group_config :=
  let new_config := config
  let new_config := new_config.set_allocate make_allocate
  let new_config := new_config.set_ready (make_ready config.get_ready)
  new_config

/-- Observable actions performed by `chunk_stream_ring_group::stop`, in
program order on the calling thread. -/
inductive RingAction
  | dataRingStop
  | freeRingStop
  | baseGroupStop
  | graveyardRelease (chunks : List chunk)
deriving DecidableEq, Repr

/-- State of a `chunk_stream_ring_group` as far as `stop` observes it. -/
structure ring_group_state where
  data_ring_stopped : Bool
  free_ring_stopped : Bool
  base : group_state
  graveyard : List chunk
deriving DecidableEq, Repr

/-- `chunk_stream_ring_group::stop` (part_000 lines 441-450): stop the data
ring, stop the free ring, run the base `chunk_stream_group::stop`, then reset
the graveyard, releasing its chunks on the calling thread. The returned trace
lists the actions in the order the calling thread performs them. -/
def ring_group_state.stop (rg : ring_group_state) :
    ring_group_state × List RingAction :=
  let rg1 := { rg with data_ring_stopped := true }
  let rg2 := { rg1 with free_ring_stopped := true }
  let rg3 := { rg2 with base := rg2.base.stop }
  let rg4 := { rg3 with graveyard := [] }
  (rg4,
   [RingAction.dataRingStop, RingAction.freeRingStop, RingAction.baseGroupStop,
    RingAction.graveyardRelease rg3.graveyard])

/-- A concrete configuration with user callbacks, used as a witness input. -/
def sample_config : chunk_stream_group_config :=
  { max_chunks := 7, eviction_mode := EvictionMode.LOSSLESS,
    allocate := AllocFn.user 3, ready := ReadyFn.user 4 }

/-- A concrete ring-group state with a non-empty graveyard, used as a witness
input. -/
def sample_ring_group : ring_group_state :=
  { data_ring_stopped := false, free_ring_stopped := false,
    base := init_state 1, graveyard := [{ chunk_id := 0, ref_count := 0 }] }

/-! ## Theorems -/

/-! ### Generic list facts -/

/-- Clearing slot `i` splits off its occupant from the chunks held in a slot
list, up to permutation. -/
theorem filterMap_getD_set_none_perm {α : Type} :
    ∀ (l : List (Option α)) (i : Nat), i < l.length →
      (l.filterMap id).Perm ((l.getD i none).toList ++ (l.set i none).filterMap id) := by
  intro l
  induction l with
  | nil => intro i h; simp at h
  | cons a t ih =>
    intro i h
    cases i with
    | zero =>
      cases a with
      | none => simp [List.filterMap_cons]
      | some x => simp [List.filterMap_cons]
    | succ j =>
      have hj : j < t.length := by simpa using h
      have hperm := ih j hj
      cases a with
      | none => simpa [List.filterMap_cons] using hperm
      | some x =>
        simp only [List.filterMap_cons, List.set_cons_succ, List.getD_cons_succ]
        exact (hperm.cons x).trans List.perm_middle.symm

/-- Writing `some v` into slot `i` adds `v` to the chunks held in a slot list,
relative to the slot list with slot `i` cleared. -/
theorem filterMap_set_some_perm {α : Type} :
    ∀ (l : List (Option α)) (i : Nat) (v : α), i < l.length →
      ((l.set i (some v)).filterMap id).Perm (v :: (l.set i none).filterMap id) := by
  intro l
  induction l with
  | nil => intro i v h; simp at h
  | cons a t ih =>
    intro i v h
    cases i with
    | zero =>
      cases a with
      | none => simp [List.filterMap_cons]
      | some x => simp [List.filterMap_cons]
    | succ j =>
      have hj : j < t.length := by simpa using h
      have hperm := ih j v hj
      cases a with
      | none => simpa [List.filterMap_cons] using hperm
      | some x =>
        simp only [List.filterMap_cons, List.set_cons_succ]
        exact (hperm.cons x).trans (List.Perm.swap v x _)

/-! ### Window slot arithmetic -/

/-- The slot index is always within the capacity. -/
theorem slot_index_lt (w : chunk_window) (h : 0 < w.capacity) (c : Int) :
    w.slot_index c < w.capacity := by
  unfold chunk_window.slot_index
  have h0 : (0 : Int) < (w.capacity : Int) := by exact_mod_cast h
  have h1 : 0 ≤ c % (w.capacity : Int) := Int.emod_nonneg c (by omega)
  have h2 : c % (w.capacity : Int) < (w.capacity : Int) := Int.emod_lt_of_pos c h0
  omega

/-- Two ids within a window-capacity span that share a slot index are equal. -/
theorem slot_index_inj (w : chunk_window) (h : 0 < w.capacity) {a b : Int}
    (hle : a ≤ b) (hlt : b - a < (w.capacity : Int))
    (heq : w.slot_index a = w.slot_index b) : a = b := by
  unfold chunk_window.slot_index at heq
  have h0 : (0 : Int) < (w.capacity : Int) := by exact_mod_cast h
  have ha : 0 ≤ a % (w.capacity : Int) := Int.emod_nonneg a (by omega)
  have hb : 0 ≤ b % (w.capacity : Int) := Int.emod_nonneg b (by omega)
  have hmod : a % (w.capacity : Int) = b % (w.capacity : Int) := by omega
  have hz : (b - a) % (w.capacity : Int) = 0 := by
    rw [Int.sub_emod, hmod, sub_self, Int.zero_emod]
  have hba : 0 ≤ b - a := by omega
  have hid : (b - a) % (w.capacity : Int) = b - a := Int.emod_eq_of_lt hba hlt
  omega

/-- A chunk resident in a slot of a well-spanned window sits exactly at its own
slot index, so the occupant of the head's slot is the chunk with the head id. -/
theorem flush_head_spec (w : chunk_window) (hw : w.pre_wf) :
    (w.flush_head).2.pre_wf ∧
    (w.flush_head).2.head_chunk = w.head_chunk + 1 ∧
    (w.flush_head).2.tail_chunk = w.tail_chunk ∧
    (w.flush_head).2.capacity = w.capacity ∧
    (∀ ch, (w.flush_head).1 = some ch →
      ch.chunk_id = w.head_chunk ∧ ch.chunk_id < w.tail_chunk) ∧
    (windowChunks w).Perm ((w.flush_head).1.toList ++ windowChunks (w.flush_head).2) := by
  obtain ⟨hcap, hspan, hok⟩ := hw
  have hidx : w.slot_index w.head_chunk < w.slots.length := slot_index_lt w hcap _
  have hcap2 : (w.flush_head).2.capacity = w.capacity := by
    simp [chunk_window.flush_head, chunk_window.capacity]
  have hhd : ∀ ch, (w.flush_head).1 = some ch →
      ch.chunk_id = w.head_chunk ∧ ch.chunk_id < w.tail_chunk := by
    intro ch hch
    have hslot : w.slots.getD (w.slot_index w.head_chunk) none = some ch := hch
    obtain ⟨hge, hlt, hix⟩ := hok _ _ hslot
    have : w.head_chunk = ch.chunk_id := by
      refine slot_index_inj w hcap hge (by omega) ?_
      rw [hix]
    exact ⟨this.symm, hlt⟩
  refine ⟨⟨by rw [hcap2]; exact hcap, ?_, ?_⟩, rfl, rfl, hcap2, hhd, ?_⟩
  · simp only [chunk_window.flush_head, chunk_window.capacity, List.length_set]
    simp only [chunk_window.capacity] at hspan
    omega
  · intro i ch hch
    simp only [chunk_window.flush_head] at hch ⊢
    by_cases hi : i = w.slot_index w.head_chunk
    · exfalso
      subst hi
      rw [List.getD_eq_getElem?_getD, List.getElem?_set_eq_of_lt _ hidx] at hch
      simp at hch
    · rw [List.getD_eq_getElem?_getD, List.getElem?_set_ne (fun h => hi h.symm),
        ← List.getD_eq_getElem?_getD] at hch
      obtain ⟨hge, hlt, hix⟩ := hok i ch hch
      have hne : ch.chunk_id ≠ w.head_chunk := by
        intro h
        apply hi
        rw [← hix, h]
      refine ⟨by omega, hlt, ?_⟩
      simpa [chunk_window.slot_index, chunk_window.capacity] using hix
  · have := filterMap_getD_set_none_perm w.slots (w.slot_index w.head_chunk) hidx
    simpa [windowChunks, chunk_window.flush_head] using this

/-- Behaviour of `n` successive head evictions: the head advances by exactly
`n`, the tail and capacity are untouched, slot consistency is preserved, the
evicted chunks carry strictly ascending ids from the flushed range, and the
window's chunks are conserved (evicted plus remaining). -/
theorem flush_n_spec :
    ∀ (n : Nat) (w : chunk_window), w.pre_wf →
      (w.flush_n n).2.pre_wf ∧
      (w.flush_n n).2.head_chunk = w.head_chunk + n ∧
      (w.flush_n n).2.tail_chunk = w.tail_chunk ∧
      (w.flush_n n).2.capacity = w.capacity ∧
      (∀ ch ∈ (w.flush_n n).1,
        w.head_chunk ≤ ch.chunk_id ∧ ch.chunk_id < w.head_chunk + n ∧
        ch.chunk_id < w.tail_chunk) ∧
      List.Pairwise (· < ·) ((w.flush_n n).1.map chunk.chunk_id) ∧
      (windowChunks w).Perm ((w.flush_n n).1 ++ windowChunks (w.flush_n n).2) := by
  intro n
  induction n with
  | zero =>
    intro w hw
    refine ⟨hw, by simp [chunk_window.flush_n], by simp [chunk_window.flush_n],
      by simp [chunk_window.flush_n], ?_, ?_, ?_⟩
    · intro ch hch
      simp [chunk_window.flush_n] at hch
    · simp [chunk_window.flush_n]
    · simp [chunk_window.flush_n]
  | succ m ih =>
    intro w hw
    obtain ⟨hfwf, hfh, hft, hfc, hfid, hfperm⟩ := flush_head_spec w hw
    obtain ⟨hwf2, hh2, ht2, hc2, hid2, hsort2, hperm2⟩ := ih (w.flush_head).2 hfwf
    have hunf1 : (w.flush_n (m + 1)).1 =
        (w.flush_head).1.toList ++ ((w.flush_head).2.flush_n m).1 := by
      simp [chunk_window.flush_n]
    have hunf2 : (w.flush_n (m + 1)).2 = ((w.flush_head).2.flush_n m).2 := by
      simp [chunk_window.flush_n]
    have hmem1 : ∀ ch ∈ (w.flush_head).1.toList,
        ch.chunk_id = w.head_chunk ∧ ch.chunk_id < w.tail_chunk := by
      intro ch hch
      apply hfid
      cases hopt : (w.flush_head).1 with
      | none => rw [hopt] at hch; simp at hch
      | some x => rw [hopt] at hch; simp at hch; rw [hch]
    refine ⟨by rw [hunf2]; exact hwf2, ?_, ?_, ?_, ?_, ?_, ?_⟩
    · rw [hunf2, hh2, hfh]
      push_cast
      omega
    · rw [hunf2, ht2, hft]
    · rw [hunf2, hc2, hfc]
    · intro ch hch
      rw [hunf1, List.mem_append] at hch
      rcases hch with hch | hch
      · obtain ⟨heq, hlt⟩ := hmem1 ch hch
        refine ⟨by omega, by omega, hlt⟩
      · obtain ⟨hge, hlt, hlt2⟩ := hid2 ch hch
        rw [hfh] at hge hlt
        rw [hft] at hlt2
        refine ⟨by omega, by push_cast at hlt ⊢; omega, hlt2⟩
    · rw [hunf1, List.map_append]
      rw [List.pairwise_append]
      refine ⟨?_, hsort2, ?_⟩
      · cases hopt : (w.flush_head).1 <;> simp
      · intro x hx y hy
        rw [List.mem_map] at hx hy
        obtain ⟨chx, hchx, hchx2⟩ := hx
        obtain ⟨chy, hchy, hchy2⟩ := hy
        obtain ⟨heqx, _⟩ := hmem1 chx hchx
        obtain ⟨hgey, _, _⟩ := hid2 chy hchy
        rw [hfh] at hgey
        omega
    · rw [hunf1, hunf2]
      refine hfperm.trans ?_
      refine (hperm2.append_left (w.flush_head).1.toList).trans ?_
      rw [List.append_assoc]

/-- When `c` is already inside the tail, `extend_to` is a no-op. -/
theorem extend_to_lt_spec (w : chunk_window) (c : Int) (hc : c < w.tail_chunk) :
    w.extend_to c = ([], w) := by
  simp [chunk_window.extend_to, hc]

/-- Behaviour of `extend_to` for any requested id at or past the head: the
window stays well formed, the head never moves back and stops at or before `c`,
the tail moves past `c` without ever moving back, capacity is unchanged, the
evicted chunks lie below the new head (in ascending id order), and the window's
chunks are conserved. -/
theorem extend_to_spec (w : chunk_window) (c : Int) (hw : w.wf)
    (hc : w.head_chunk ≤ c) :
    (w.extend_to c).2.wf ∧
    w.head_chunk ≤ (w.extend_to c).2.head_chunk ∧
    (w.extend_to c).2.head_chunk ≤ c ∧
    c < (w.extend_to c).2.tail_chunk ∧
    w.tail_chunk ≤ (w.extend_to c).2.tail_chunk ∧
    (w.extend_to c).2.capacity = w.capacity ∧
    (∀ ch ∈ (w.extend_to c).1,
      w.head_chunk ≤ ch.chunk_id ∧ ch.chunk_id < (w.extend_to c).2.head_chunk ∧
      ch.chunk_id < w.tail_chunk) ∧
    List.Pairwise (· < ·) ((w.extend_to c).1.map chunk.chunk_id) ∧
    (windowChunks w).Perm ((w.extend_to c).1 ++ windowChunks (w.extend_to c).2) := by
  obtain ⟨hcap, hht, hspan, hok⟩ := hw
  by_cases hlt : c < w.tail_chunk
  · rw [extend_to_lt_spec w c hlt]
    exact ⟨⟨hcap, hht, hspan, hok⟩, le_refl _, hc, hlt, le_refl _, rfl,
      fun ch hch => absurd hch (List.not_mem_nil ch), List.Pairwise.nil,
      by simp⟩
  · push_neg at hlt
    have hunf1 : (w.extend_to c).1 =
        (w.flush_n ((max w.head_chunk (c + 1 - (w.capacity : Int)) -
          w.head_chunk).toNat)).1 := by
      simp [chunk_window.extend_to, not_lt.mpr hlt]
    have hunf2 : (w.extend_to c).2 =
        { (w.flush_n ((max w.head_chunk (c + 1 - (w.capacity : Int)) -
            w.head_chunk).toNat)).2 with tail_chunk := c + 1 } := by
      simp [chunk_window.extend_to, not_lt.mpr hlt]
    obtain ⟨⟨hcap2, hspan2, hok2⟩, hh2, ht2, hc2, hid2, hsort2, hperm2⟩ :=
      flush_n_spec ((max w.head_chunk (c + 1 - (w.capacity : Int)) -
        w.head_chunk).toNat) w ⟨hcap, hspan, hok⟩
    have hcap1 : (1 : Int) ≤ (w.capacity : Int) := by exact_mod_cast hcap
    have hmax1 : w.head_chunk ≤ max w.head_chunk (c + 1 - (w.capacity : Int)) :=
      le_max_left _ _
    have hmax2 : max w.head_chunk (c + 1 - (w.capacity : Int)) ≤ c := by
      apply max_le (le_trans hht hlt)
      omega
    have hcast : ((max w.head_chunk (c + 1 - (w.capacity : Int)) -
        w.head_chunk).toNat : Int) =
        max w.head_chunk (c + 1 - (w.capacity : Int)) - w.head_chunk := by
      omega
    have hh2' : (w.flush_n ((max w.head_chunk (c + 1 - (w.capacity : Int)) -
        w.head_chunk).toNat)).2.head_chunk =
        max w.head_chunk (c + 1 - (w.capacity : Int)) := by
      rw [hh2, hcast]
      omega
    refine ⟨⟨?_, ?_, ?_, ?_⟩, ?_, ?_, ?_, ?_, ?_, ?_, ?_, ?_⟩
    · rw [hunf2]
      show 0 < (w.flush_n _).2.slots.length
      rw [show ∀ v : chunk_window, v.slots.length = v.capacity from fun v => rfl, hc2]
      exact hcap
    · rw [hunf2]
      show (w.flush_n _).2.head_chunk ≤ c + 1
      rw [hh2']
      omega
    · rw [hunf2]
      show c + 1 - (w.flush_n _).2.head_chunk ≤
        ((w.flush_n _).2.slots.length : Int)
      rw [hh2', show ∀ v : chunk_window, v.slots.length = v.capacity from fun v => rfl,
        hc2]
      omega
    · rw [hunf2]
      intro i ch hch
      obtain ⟨hge, hltt, hix⟩ := hok2 i ch hch
      refine ⟨hge, ?_, ?_⟩
      · show ch.chunk_id < c + 1
        rw [ht2] at hltt
        omega
      rw [show ∀ (v : chunk_window) (t : Int) (d : Int),
        ({ v with tail_chunk := t } : chunk_window).slot_index d = v.slot_index d
        from fun v t d => rfl]
      exact hix
    · rw [hunf2]
      show w.head_chunk ≤ (w.flush_n _).2.head_chunk
      rw [hh2']
      omega
    · rw [hunf2]
      show (w.flush_n _).2.head_chunk ≤ c
      rw [hh2']
      omega
    · rw [hunf2]
      show c < c + 1
      omega
    · rw [hunf2]
      show w.tail_chunk ≤ c + 1
      omega
    · rw [hunf2]
      show (w.flush_n _).2.slots.length = w.capacity
      rw [show ∀ v : chunk_window, v.slots.length = v.capacity from fun v => rfl, hc2]
    · rw [hunf1, hunf2]
      intro ch hch
      obtain ⟨hge, hlth, hltt⟩ := hid2 ch hch
      refine ⟨hge, ?_, hltt⟩
      show ch.chunk_id < (w.flush_n _).2.head_chunk
      rw [hh2']
      rw [hcast] at hlth
      omega
    · rw [hunf1]
      exact hsort2
    · rw [hunf1, hunf2]
      exact hperm2

/-- Behaviour of the install step inside the window: the returned chunk has the
requested id, the window stays well formed with unchanged bounds and capacity,
the multiset of resident ids gains `c` exactly when the allocate callback ran
(which happens exactly when the slot was null), the returned reference count is
the previous one plus one (one for a fresh chunk), and the slot now holds the
returned chunk. -/
theorem install_chunk_spec (w1 : chunk_window) (c : Int) (hw : w1.wf)
    (h1 : w1.head_chunk ≤ c) (h2 : c < w1.tail_chunk) :
    (install_chunk w1 c).1.chunk_id = c ∧
    (install_chunk w1 c).2.1.wf ∧
    (install_chunk w1 c).2.1.head_chunk = w1.head_chunk ∧
    (install_chunk w1 c).2.1.tail_chunk = w1.tail_chunk ∧
    (install_chunk w1 c).2.1.capacity = w1.capacity ∧
    ((install_chunk w1 c).2.2 = true →
      (windowIds (install_chunk w1 c).2.1).Perm (c :: windowIds w1) ∧
      w1.slots.getD (w1.slot_index c) none = none) ∧
    ((install_chunk w1 c).2.2 = false →
      (windowIds (install_chunk w1 c).2.1).Perm (windowIds w1)) ∧
    (install_chunk w1 c).1.ref_count =
      (match w1.slots.getD (w1.slot_index c) none with
       | some old => old.ref_count + 1
       | none => 1) ∧
    (install_chunk w1 c).2.1.slots.getD (w1.slot_index c) none =
      some (install_chunk w1 c).1 := by
  obtain ⟨hcap, hht, hspan, hok⟩ := hw
  have hidx : w1.slot_index c < w1.slots.length := slot_index_lt w1 hcap c
  have hsetok : ∀ newch : chunk, newch.chunk_id = c →
      ({ w1 with slots := w1.slots.set (w1.slot_index c) (some newch) } :
        chunk_window).slots_ok := by
    intro newch hnid i ch hch
    have hsieq : ∀ d : Int,
        ({ w1 with slots := w1.slots.set (w1.slot_index c) (some newch) } :
          chunk_window).slot_index d = w1.slot_index d := by
      intro d
      simp [chunk_window.slot_index, chunk_window.capacity]
    by_cases hi : i = w1.slot_index c
    · subst hi
      simp only at hch
      rw [List.getD_eq_getElem?_getD, List.getElem?_set_eq_of_lt _ hidx] at hch
      simp at hch
      subst hch
      exact ⟨by rw [hnid]; exact h1, by rw [hnid]; exact h2, by rw [hsieq, hnid]⟩
    · simp only at hch
      rw [List.getD_eq_getElem?_getD, List.getElem?_set_ne (fun h => hi h.symm),
        ← List.getD_eq_getElem?_getD] at hch
      obtain ⟨hge, hlt, hix⟩ := hok i ch hch
      exact ⟨hge, hlt, by rw [hsieq]; exact hix⟩
  have hsetwf : ∀ newch : chunk, newch.chunk_id = c →
      ({ w1 with slots := w1.slots.set (w1.slot_index c) (some newch) } :
        chunk_window).wf := by
    intro newch hnid
    refine ⟨?_, hht, ?_, hsetok newch hnid⟩
    · simpa [chunk_window.capacity] using hcap
    · simpa [chunk_window.capacity] using hspan
  have hslotperm : ∀ newch : chunk,
      (windowIds ({ w1 with slots := w1.slots.set (w1.slot_index c) (some newch) } :
        chunk_window)).Perm
      (newch.chunk_id :: ((w1.slots.set (w1.slot_index c) none).filterMap id).map
        chunk.chunk_id) := by
    intro newch
    have := (filterMap_set_some_perm w1.slots (w1.slot_index c) newch hidx).map
      chunk.chunk_id
    simpa [windowIds, windowChunks] using this
  cases hslot : w1.slots.getD (w1.slot_index c) none with
  | none =>
    have hbase : (windowIds w1).Perm
        (((w1.slots.set (w1.slot_index c) none).filterMap id).map chunk.chunk_id) := by
      have := (filterMap_getD_set_none_perm w1.slots (w1.slot_index c) hidx).map
        chunk.chunk_id
      rw [hslot] at this
      simpa [windowIds, windowChunks] using this
    have hinst : install_chunk w1 c =
        ({ chunk_id := c, ref_count := 1 },
         { w1 with slots := w1.slots.set (w1.slot_index c) (some { chunk_id := c, ref_count := 1 }) },
         true) := by
      simp only [install_chunk, hslot]
    rw [hinst]
    refine ⟨rfl, hsetwf _ rfl, rfl, rfl, by simp [chunk_window.capacity],
      ?_, ?_, rfl, ?_⟩
    · intro _
      exact ⟨(hslotperm _).trans (hbase.symm.cons c), rfl⟩
    · intro h
      cases h
    · show (w1.slots.set (w1.slot_index c)
        (some { chunk_id := c, ref_count := 1 })).getD (w1.slot_index c) none = _
      rw [List.getD_eq_getElem?_getD, List.getElem?_set_eq_of_lt _ hidx]
      rfl
  | some ch =>
    obtain ⟨hge, hlt, hix⟩ := hok _ ch hslot
    have hcid : ch.chunk_id = c := by
      rcases le_total ch.chunk_id c with hcase | hcase
      · exact slot_index_inj w1 hcap hcase (by omega) hix
      · exact (slot_index_inj w1 hcap hcase (by omega) hix.symm).symm
    have hbase : (windowIds w1).Perm
        (ch.chunk_id :: ((w1.slots.set (w1.slot_index c) none).filterMap id).map
          chunk.chunk_id) := by
      have := (filterMap_getD_set_none_perm w1.slots (w1.slot_index c) hidx).map
        chunk.chunk_id
      rw [hslot] at this
      simpa [windowIds, windowChunks] using this
    have hinst : install_chunk w1 c =
        ({ ch with ref_count := ch.ref_count + 1 },
         { w1 with slots := w1.slots.set (w1.slot_index c) (some { ch with ref_count := ch.ref_count + 1 }) },
         false) := by
      simp only [install_chunk, hslot]
    rw [hinst]
    refine ⟨hcid, hsetwf _ hcid, rfl, rfl, by simp [chunk_window.capacity],
      ?_, ?_, rfl, ?_⟩
    · intro h
      cases h
    · intro _
      exact (hslotperm _).trans hbase.symm
    · show (w1.slots.set (w1.slot_index c)
        (some { ch with ref_count := ch.ref_count + 1 })).getD (w1.slot_index c) none = _
      rw [List.getD_eq_getElem?_getD, List.getElem?_set_eq_of_lt _ hidx]
      rfl

/-- The pending FIFO drain splits its input into delivered prefix and
remaining suffix. -/
theorem drain_pending_eq :
    ∀ p : List chunk, p = (drain_pending p).1 ++ (drain_pending p).2 := by
  intro p
  induction p with
  | nil => rfl
  | cons ch rest ih =>
    by_cases h : ch.ref_count = 0
    · simp only [drain_pending, if_pos h]
      rw [List.cons_append, ← ih]
    · simp [drain_pending, h]

/-- Decrementing a reference count in the pending FIFO does not change the ids. -/
theorem map_chunk_id_dec (p : List chunk) (c : Int) :
    (p.map (fun ch => if ch.chunk_id = c then dec_ref ch else ch)).map chunk.chunk_id =
      p.map chunk.chunk_id := by
  rw [List.map_map]
  apply List.map_congr_left
  intro a _
  by_cases h2 : a.chunk_id = c <;> simp [h2, dec_ref]

/-- Coercion of list concatenation to multisets. -/
theorem coe_append (l₁ l₂ : List Int) :
    ((l₁ ++ l₂ : List Int) : Multiset Int) = ↑l₁ + ↑l₂ := by
  rw [← Multiset.coe_add]

/-- Unfolding of `get_chunk` on a too-old id. -/
theorem get_chunk_too_old (st : group_state) (c : Int)
    (hc : c < st.window.head_chunk) : st.get_chunk c = (none, st) := by
  simp [group_state.get_chunk, hc]

/-- Unfolding of `get_chunk` on an id at or past the head. -/
theorem get_chunk_in_range (st : group_state) (c : Int)
    (hc : ¬ c < st.window.head_chunk) :
    st.get_chunk c =
      (some (install_chunk (st.window.extend_to c).2 c).1,
       { window := (install_chunk (st.window.extend_to c).2 c).2.1,
         readyIds := st.readyIds ++
           (drain_pending (st.pending ++ (st.window.extend_to c).1)).1.map chunk.chunk_id,
         pending := (drain_pending (st.pending ++ (st.window.extend_to c).1)).2,
         allocatedIds := if (install_chunk (st.window.extend_to c).2 c).2.2
           then st.allocatedIds ++ [c] else st.allocatedIds }) := by
  simp [group_state.get_chunk, hc]

/-- `get_chunk` preserves the global invariant, never moves the window's head or
tail backwards, and leaves the capacity unchanged. -/
theorem get_chunk_inv (st : group_state) (c : Int) (hinv : group_inv st) :
    group_inv (st.get_chunk c).2 ∧
    st.window.head_chunk ≤ (st.get_chunk c).2.window.head_chunk ∧
    st.window.tail_chunk ≤ (st.get_chunk c).2.window.tail_chunk ∧
    (st.get_chunk c).2.window.capacity = st.window.capacity := by
  obtain ⟨hwf, hrs, hps, hrp, hph, hrh, hap⟩ := hinv
  by_cases hc : c < st.window.head_chunk
  · rw [get_chunk_too_old st c hc]
    exact ⟨⟨hwf, hrs, hps, hrp, hph, hrh, hap⟩, le_refl _, le_refl _, rfl⟩
  · rw [get_chunk_in_range st c hc]
    push_neg at hc
    obtain ⟨hwf1, hh1, hhc1, hct1, ht1, hcap1, hev, hevs, hevperm⟩ :=
      extend_to_spec st.window c hwf hc
    obtain ⟨hid2, hwf2, hh2, ht2, hcap2, halloc2, hnoalloc2, hrc2, hslot2⟩ :=
      install_chunk_spec (st.window.extend_to c).2 c hwf1 hhc1 hct1
    have hsplit : st.pending ++ (st.window.extend_to c).1 =
        (drain_pending (st.pending ++ (st.window.extend_to c).1)).1 ++
        (drain_pending (st.pending ++ (st.window.extend_to c).1)).2 :=
      drain_pending_eq _
    have hpendlt : ∀ p ∈ st.pending ++ (st.window.extend_to c).1,
        p.chunk_id < (st.window.extend_to c).2.head_chunk := by
      intro p hp
      rcases List.mem_append.mp hp with hp | hp
      · have := hph p hp
        omega
      · exact (hev p hp).2.1
    have hreadylt : ∀ r ∈ st.readyIds, ∀ p ∈ st.pending ++ (st.window.extend_to c).1,
        r < p.chunk_id := by
      intro r hr p hp
      rcases List.mem_append.mp hp with hp | hp
      · exact hrp r hr p hp
      · have h1 := hrh r hr
        have h2 := (hev p hp).1
        omega
    have hp1sorted : List.Pairwise (· < ·)
        ((st.pending ++ (st.window.extend_to c).1).map chunk.chunk_id) := by
      rw [List.map_append, List.pairwise_append]
      refine ⟨hps, hevs, ?_⟩
      intro x hx y hy
      obtain ⟨p, hp, rfl⟩ := List.mem_map.mp hx
      obtain ⟨q, hq, rfl⟩ := List.mem_map.mp hy
      have h1 := hph p hp
      have h2 := (hev q hq).1
      omega
    have hdp := hp1sorted
    rw [hsplit, List.map_append, List.pairwise_append] at hdp
    obtain ⟨hsortD, hsortP2, hcrossDP⟩ := hdp
    have hmemD : ∀ p ∈ (drain_pending (st.pending ++ (st.window.extend_to c).1)).1,
        p ∈ st.pending ++ (st.window.extend_to c).1 := by
      intro p hp
      rw [hsplit]
      exact List.mem_append_left _ hp
    have hmemP2 : ∀ p ∈ (drain_pending (st.pending ++ (st.window.extend_to c).1)).2,
        p ∈ st.pending ++ (st.window.extend_to c).1 := by
      intro p hp
      rw [hsplit]
      exact List.mem_append_right _ hp
    have hwinw : (↑(windowIds st.window) : Multiset Int) =
        ↑((st.window.extend_to c).1.map chunk.chunk_id) +
        ↑(windowIds (st.window.extend_to c).2) := by
      have hm := hevperm.map chunk.chunk_id
      rw [List.map_append] at hm
      rw [show (↑(windowIds st.window) : Multiset Int) =
        ↑((st.window.extend_to c).1.map chunk.chunk_id ++
          windowIds (st.window.extend_to c).2) from Multiset.coe_eq_coe.mpr hm]
      exact coe_append _ _
    have hsplitM : (↑(st.pending.map chunk.chunk_id) : Multiset Int) +
        ↑((st.window.extend_to c).1.map chunk.chunk_id) =
        ↑((drain_pending (st.pending ++ (st.window.extend_to c).1)).1.map chunk.chunk_id) +
        ↑((drain_pending (st.pending ++ (st.window.extend_to c).1)).2.map chunk.chunk_id) := by
      have hm := congrArg (fun l : List chunk =>
        ((l.map chunk.chunk_id : List Int) : Multiset Int)) hsplit
      simp only [List.map_append, coe_append] at hm
      exact hm
    refine ⟨⟨hwf2, ?_, hsortP2, ?_, ?_, ?_, ?_⟩, ?_, ?_, ?_⟩
    · rw [List.pairwise_append]
      refine ⟨hrs, hsortD, ?_⟩
      intro x hx y hy
      obtain ⟨q, hq, rfl⟩ := List.mem_map.mp hy
      exact hreadylt x hx q (hmemD q hq)
    · intro r hr p hp
      rcases List.mem_append.mp hr with hr | hr
      · exact hreadylt r hr p (hmemP2 p hp)
      · obtain ⟨q, hq, rfl⟩ := List.mem_map.mp hr
        exact hcrossDP _ (List.mem_map_of_mem _ hq) _ (List.mem_map_of_mem _ hp)
    · intro p hp
      rw [hh2]
      exact hpendlt p (hmemP2 p hp)
    · intro r hr
      rw [hh2]
      rcases List.mem_append.mp hr with hr | hr
      · have h1 := hrh r hr
        omega
      · obtain ⟨q, hq, rfl⟩ := List.mem_map.mp hr
        exact hpendlt q (hmemD q hq)
    · cases hb : (install_chunk (st.window.extend_to c).2 c).2.2 with
      | true =>
        obtain ⟨hpermw2, -⟩ := halloc2 hb
        have hw2M : (↑(windowIds (install_chunk (st.window.extend_to c).2 c).2.1) :
            Multiset Int) = ↑([c] : List Int) +
            ↑(windowIds (st.window.extend_to c).2) := by
          rw [Multiset.coe_eq_coe.mpr hpermw2]
          exact coe_append [c] _
        rw [if_pos rfl, coe_append, coe_append]
        refine Multiset.ext.mpr (fun a => ?_)
        have k1 := congrArg (Multiset.count a) hap
        have k2 := congrArg (Multiset.count a) hwinw
        have k3 := congrArg (Multiset.count a) hsplitM
        have k4 := congrArg (Multiset.count a) hw2M
        simp only [Multiset.count_add] at k1 k2 k3 k4 ⊢
        omega
      | false =>
        have hw2M : (↑(windowIds (install_chunk (st.window.extend_to c).2 c).2.1) :
            Multiset Int) = ↑(windowIds (st.window.extend_to c).2) :=
          Multiset.coe_eq_coe.mpr (hnoalloc2 hb)
        rw [if_neg (by simp), coe_append]
        refine Multiset.ext.mpr (fun a => ?_)
        have k1 := congrArg (Multiset.count a) hap
        have k2 := congrArg (Multiset.count a) hwinw
        have k3 := congrArg (Multiset.count a) hsplitM
        have k4 := congrArg (Multiset.count a) hw2M
        simp only [Multiset.count_add] at k1 k2 k3 k4 ⊢
        omega
    · rw [hh2]
      exact hh1
    · rw [ht2]
      exact ht1
    · rw [hcap2, hcap1]

/-- Unfolding of `release_chunk` when the chunk is still resident in the
window: only its slot's reference count changes. -/
theorem release_chunk_in_window_some (st : group_state) (c : Int) (ch : chunk)
    (h1 : st.window.head_chunk ≤ c) (h2 : c < st.window.tail_chunk)
    (hslot : st.window.slots.getD (st.window.slot_index c) none = some ch) :
    st.release_chunk c =
      { st with window := { st.window with slots := st.window.slots.set (st.window.slot_index c) (some (dec_ref ch)) } } := by
  have hslot2 : st.window.slots[st.window.slot_index c]?.getD none = some ch := by
    rw [← List.getD_eq_getElem?_getD]
    exact hslot
  simp [group_state.release_chunk, h1, h2, hslot2]

/-- Unfolding of `release_chunk` on an in-window id whose slot is empty. -/
theorem release_chunk_in_window_none (st : group_state) (c : Int)
    (h1 : st.window.head_chunk ≤ c) (h2 : c < st.window.tail_chunk)
    (hslot : st.window.slots.getD (st.window.slot_index c) none = none) :
    st.release_chunk c = st := by
  have hslot2 : st.window.slots[st.window.slot_index c]?.getD none = none := by
    rw [← List.getD_eq_getElem?_getD]
    exact hslot
  simp [group_state.release_chunk, h1, h2, hslot2]

/-- Unfolding of `release_chunk` on an evicted id: decrement in the pending
FIFO and drain deliverable chunks from the front. -/
theorem release_chunk_outside (st : group_state) (c : Int)
    (h : ¬ (st.window.head_chunk ≤ c ∧ c < st.window.tail_chunk)) :
    st.release_chunk c =
      { st with
        readyIds := st.readyIds ++
          (drain_pending (st.pending.map (fun ch => if ch.chunk_id = c then dec_ref ch else ch))).1.map chunk.chunk_id,
        pending := (drain_pending (st.pending.map (fun ch => if ch.chunk_id = c then dec_ref ch else ch))).2 } := by
  simp [group_state.release_chunk, h]

/-- `release_chunk` preserves the global invariant and leaves the window's
bounds and capacity unchanged. -/
theorem release_chunk_inv (st : group_state) (c : Int) (hinv : group_inv st) :
    group_inv (st.release_chunk c) ∧
    (st.release_chunk c).window.head_chunk = st.window.head_chunk ∧
    (st.release_chunk c).window.tail_chunk = st.window.tail_chunk ∧
    (st.release_chunk c).window.capacity = st.window.capacity := by
  obtain ⟨hwf, hrs, hps, hrp, hph, hrh, hap⟩ := hinv
  by_cases hin : st.window.head_chunk ≤ c ∧ c < st.window.tail_chunk
  · cases hslot : st.window.slots.getD (st.window.slot_index c) none with
    | none =>
      rw [release_chunk_in_window_none st c hin.1 hin.2 hslot]
      exact ⟨⟨hwf, hrs, hps, hrp, hph, hrh, hap⟩, rfl, rfl, rfl⟩
    | some ch =>
      rw [release_chunk_in_window_some st c ch hin.1 hin.2 hslot]
      obtain ⟨hcap, hht, hspan, hok⟩ := hwf
      have hidx : st.window.slot_index c < st.window.slots.length :=
        slot_index_lt st.window hcap c
      obtain ⟨hge, hlt, hix⟩ := hok _ ch hslot
      have hwf' : ({ st.window with slots := st.window.slots.set (st.window.slot_index c) (some (dec_ref ch)) } : chunk_window).wf := by
        refine ⟨by simpa [chunk_window.capacity] using hcap, hht,
          by simpa [chunk_window.capacity] using hspan, ?_⟩
        intro i ch2 hch2
        by_cases hi : i = st.window.slot_index c
        · subst hi
          simp only at hch2
          rw [List.getD_eq_getElem?_getD, List.getElem?_set_eq_of_lt _ hidx] at hch2
          simp at hch2
          subst hch2
          refine ⟨hge, hlt, ?_⟩
          simpa [chunk_window.slot_index, chunk_window.capacity, dec_ref] using hix
        · simp only at hch2
          rw [List.getD_eq_getElem?_getD, List.getElem?_set_ne (fun hh => hi hh.symm),
            ← List.getD_eq_getElem?_getD] at hch2
          obtain ⟨a, b, d⟩ := hok i ch2 hch2
          exact ⟨a, b, by simpa [chunk_window.slot_index, chunk_window.capacity] using d⟩
      have h1 : (windowIds { st.window with slots := st.window.slots.set (st.window.slot_index c) (some (dec_ref ch)) }).Perm
          ((dec_ref ch).chunk_id :: ((st.window.slots.set (st.window.slot_index c) none).filterMap id).map chunk.chunk_id) := by
        have := (filterMap_set_some_perm st.window.slots (st.window.slot_index c)
          (dec_ref ch) hidx).map chunk.chunk_id
        simpa [windowIds, windowChunks] using this
      have h2 : (windowIds st.window).Perm
          (ch.chunk_id :: ((st.window.slots.set (st.window.slot_index c) none).filterMap id).map chunk.chunk_id) := by
        have := (filterMap_getD_set_none_perm st.window.slots (st.window.slot_index c)
          hidx).map chunk.chunk_id
        rw [hslot] at this
        simpa [windowIds, windowChunks] using this
      have hW : (windowIds { st.window with slots := st.window.slots.set (st.window.slot_index c) (some (dec_ref ch)) }).Perm
          (windowIds st.window) := h1.trans h2.symm
      refine ⟨⟨hwf', hrs, hps, hrp, hph, hrh, ?_⟩, rfl, rfl,
        by simp [chunk_window.capacity]⟩
      rw [show ((windowIds { st.window with slots := st.window.slots.set (st.window.slot_index c) (some (dec_ref ch)) } : List Int) : Multiset Int) = ↑(windowIds st.window) from Multiset.coe_eq_coe.mpr hW]
      exact hap
  · rw [release_chunk_outside st c hin]
    have hids : (st.pending.map (fun ch => if ch.chunk_id = c then dec_ref ch else ch)).map chunk.chunk_id =
        st.pending.map chunk.chunk_id := map_chunk_id_dec st.pending c
    have hsplit := drain_pending_eq
      (st.pending.map (fun ch => if ch.chunk_id = c then dec_ref ch else ch))
    have hp1sorted : List.Pairwise (· < ·)
        ((st.pending.map (fun ch => if ch.chunk_id = c then dec_ref ch else ch)).map chunk.chunk_id) := by
      rw [hids]
      exact hps
    have hdp := hp1sorted
    rw [hsplit, List.map_append, List.pairwise_append] at hdp
    obtain ⟨hsortD, hsortP2, hcrossDP⟩ := hdp
    have hmemid : ∀ p ∈ st.pending.map (fun ch => if ch.chunk_id = c then dec_ref ch else ch),
        p.chunk_id ∈ st.pending.map chunk.chunk_id := by
      intro p hp
      rw [← hids]
      exact List.mem_map_of_mem _ hp
    have hidlt : ∀ y ∈ st.pending.map chunk.chunk_id, y < st.window.head_chunk := by
      intro y hy
      obtain ⟨q, hq, rfl⟩ := List.mem_map.mp hy
      exact hph q hq
    have hidrd : ∀ r ∈ st.readyIds, ∀ y ∈ st.pending.map chunk.chunk_id, r < y := by
      intro r hr y hy
      obtain ⟨q, hq, rfl⟩ := List.mem_map.mp hy
      exact hrp r hr q hq
    have hmemD : ∀ p ∈ (drain_pending (st.pending.map (fun ch => if ch.chunk_id = c then dec_ref ch else ch))).1,
        p.chunk_id ∈ st.pending.map chunk.chunk_id := by
      intro p hp
      apply hmemid
      rw [hsplit]
      exact List.mem_append_left _ hp
    have hmemP2 : ∀ p ∈ (drain_pending (st.pending.map (fun ch => if ch.chunk_id = c then dec_ref ch else ch))).2,
        p.chunk_id ∈ st.pending.map chunk.chunk_id := by
      intro p hp
      apply hmemid
      rw [hsplit]
      exact List.mem_append_right _ hp
    have hM : (↑(st.pending.map chunk.chunk_id) : Multiset Int) =
        ↑((drain_pending (st.pending.map (fun ch => if ch.chunk_id = c then dec_ref ch else ch))).1.map chunk.chunk_id) +
        ↑((drain_pending (st.pending.map (fun ch => if ch.chunk_id = c then dec_ref ch else ch))).2.map chunk.chunk_id) := by
      have hm := congrArg (fun l : List chunk =>
        ((l.map chunk.chunk_id : List Int) : Multiset Int)) hsplit
      simp only [List.map_append, coe_append] at hm
      rw [← hids]
      exact hm
    refine ⟨⟨hwf, ?_, hsortP2, ?_, ?_, ?_, ?_⟩, rfl, rfl, rfl⟩
    · rw [List.pairwise_append]
      refine ⟨hrs, hsortD, ?_⟩
      intro x hx y hy
      obtain ⟨q, hq, rfl⟩ := List.mem_map.mp hy
      exact hidrd x hx _ (hmemD q hq)
    · intro r hr p hp
      rcases List.mem_append.mp hr with hr | hr
      · exact hidrd r hr _ (hmemP2 p hp)
      · obtain ⟨q, hq, rfl⟩ := List.mem_map.mp hr
        exact hcrossDP _ (List.mem_map_of_mem _ hq) _ (List.mem_map_of_mem _ hp)
    · intro p hp
      exact hidlt _ (hmemP2 p hp)
    · intro r hr
      rcases List.mem_append.mp hr with hr | hr
      · exact hrh r hr
      · obtain ⟨q, hq, rfl⟩ := List.mem_map.mp hr
        exact hidlt _ (hmemD q hq)
    · rw [coe_append]
      refine Multiset.ext.mpr (fun a => ?_)
      have k1 := congrArg (Multiset.count a) hap
      have k2 := congrArg (Multiset.count a) hM
      simp only [Multiset.count_add] at k1 k2 ⊢
      omega

/-- A single operation preserves the invariant and the monotonicity facts. -/
theorem step_inv (st : group_state) (op : GroupOp) (h : group_inv st) :
    group_inv (st.step op) ∧
    st.window.head_chunk ≤ (st.step op).window.head_chunk ∧
    st.window.tail_chunk ≤ (st.step op).window.tail_chunk ∧
    (st.step op).window.capacity = st.window.capacity := by
  cases op with
  | get c => exact get_chunk_inv st c h
  | rel c =>
    obtain ⟨h1, h2, h3, h4⟩ := release_chunk_inv st c h
    exact ⟨h1, le_of_eq h2.symm, le_of_eq h3.symm, h4⟩

/-- Any interleaving of operations preserves the invariant; the head and tail
never decrease and the capacity never changes along the run. -/
theorem run_inv (ops : List GroupOp) (st : group_state) (h : group_inv st) :
    group_inv (st.run ops) ∧
    st.window.head_chunk ≤ (st.run ops).window.head_chunk ∧
    st.window.tail_chunk ≤ (st.run ops).window.tail_chunk ∧
    (st.run ops).window.capacity = st.window.capacity := by
  induction ops generalizing st with
  | nil => exact ⟨h, le_refl _, le_refl _, rfl⟩
  | cons op rest ih =>
    obtain ⟨g1, g2, g3, g4⟩ := step_inv st op h
    obtain ⟨r1, r2, r3, r4⟩ := ih (st.step op) g1
    have hruncons : st.run (op :: rest) = (st.step op).run rest := rfl
    rw [hruncons]
    exact ⟨r1, le_trans g2 r2, le_trans g3 r3, by rw [r4, g4]⟩

/-- Running a concatenation of operation lists runs them in sequence. -/
theorem run_append (st : group_state) (l1 l2 : List GroupOp) :
    st.run (l1 ++ l2) = (st.run l1).run l2 := by
  simp [group_state.run, List.foldl_append]

/-- The freshly constructed group satisfies the invariant. -/
theorem init_inv (cap : Nat) (hcap : 0 < cap) : group_inv (init_state cap) := by
  have hwin : windowIds (init_state cap).window = [] := by
    have hf : (List.filterMap id (List.replicate cap (none : Option chunk))) = [] := by
      rw [List.filterMap_eq_nil_iff]
      intro a ha
      rw [List.eq_of_mem_replicate ha]
      rfl
    unfold windowIds windowChunks init_state
    simp only
    rw [hf]
    rfl
  refine ⟨⟨?_, le_refl 0, ?_, ?_⟩, List.Pairwise.nil, ?_, ?_, ?_, ?_, ?_⟩
  · simpa [init_state, chunk_window.capacity] using hcap
  · simp [init_state, chunk_window.capacity]
  · intro i ch hch
    unfold init_state at hch
    simp only at hch
    rw [List.getD_eq_getElem?_getD, List.getElem?_replicate] at hch
    by_cases hi : i < cap <;> simp [hi] at hch
  · simp [init_state]
  · intro r hr
    simp [init_state] at hr
  · intro p hp
    simp [init_state] at hp
  · intro r hr
    simp [init_state] at hr
  · rw [hwin]
    simp [init_state]

/-- A chunk held in the window sits in some slot. -/
theorem windowChunks_mem_getD (w : chunk_window) (ch : chunk)
    (h : ch ∈ windowChunks w) : ∃ i, w.slots.getD i none = some ch := by
  unfold windowChunks at h
  obtain ⟨o, ho, hid⟩ := List.mem_filterMap.mp h
  cases o with
  | none => cases hid
  | some x =>
    obtain ⟨i, hi, hgi⟩ := List.mem_iff_getElem.mp ho
    refine ⟨i, ?_⟩
    rw [List.getD_eq_getElem?_getD, List.getElem?_eq_getElem hi, hgi]
    simpa using hid

/-- `stop` is the identity on a group whose window is empty and whose pending
FIFO has been drained. -/
theorem stop_fixed (st2 : group_state)
    (h : st2.window.tail_chunk - st2.window.head_chunk ≤ 0)
    (hp : st2.pending = []) : st2.stop = st2 := by
  obtain ⟨w2, r2, p2, a2⟩ := st2
  simp only at h hp
  subst hp
  have hn : (w2.tail_chunk - w2.head_chunk).toNat = 0 := by omega
  simp [group_state.stop, hn, chunk_window.flush_n]

/-- Behaviour of `stop` on an invariant state: the full delivery sequence is
strictly ascending, it delivers exactly the ids ever allocated (with
multiplicity), the allocation record is untouched, and a second `stop` is the
identity. -/
theorem stop_spec (st : group_state) (hinv : group_inv st) :
    List.Pairwise (· < ·) st.stop.readyIds ∧
    (st.stop.readyIds : Multiset Int) = (st.allocatedIds : Multiset Int) ∧
    st.stop.allocatedIds = st.allocatedIds ∧
    st.stop.stop = st.stop := by
  obtain ⟨hwf, hrs, hps, hrp, hph, hrh, hap⟩ := hinv
  obtain ⟨hcap, hht, hspan, hok⟩ := hwf
  obtain ⟨⟨hcap2, hspan2, hok2⟩, hh2, ht2, hc2, hid2, hsort2, hperm2⟩ :=
    flush_n_spec ((st.window.tail_chunk - st.window.head_chunk).toNat) st.window
      ⟨hcap, hspan, hok⟩
  have hcast : ((st.window.tail_chunk - st.window.head_chunk).toNat : Int) =
      st.window.tail_chunk - st.window.head_chunk := by omega
  have hhead2 : (chunk_window.flush_n st.window
      (st.window.tail_chunk - st.window.head_chunk).toNat).2.head_chunk =
      st.window.tail_chunk := by
    rw [hh2, hcast]
    omega
  have hempty : windowChunks (chunk_window.flush_n st.window
      (st.window.tail_chunk - st.window.head_chunk).toNat).2 = [] := by
    apply List.eq_nil_iff_forall_not_mem.mpr
    intro ch hch
    obtain ⟨i, hi⟩ := windowChunks_mem_getD _ ch hch
    obtain ⟨hge, hlt, -⟩ := hok2 i ch hi
    rw [hhead2] at hge
    rw [ht2] at hlt
    omega
  have hEperm : (windowChunks st.window).Perm
      (chunk_window.flush_n st.window
        (st.window.tail_chunk - st.window.head_chunk).toNat).1 := by
    have hq := hperm2
    rw [hempty, List.append_nil] at hq
    exact hq
  have hstopready : st.stop.readyIds =
      st.readyIds ++ st.pending.map chunk.chunk_id ++
      (chunk_window.flush_n st.window
        (st.window.tail_chunk - st.window.head_chunk).toNat).1.map chunk.chunk_id := rfl
  refine ⟨?_, ?_, rfl, ?_⟩
  · rw [hstopready]
    rw [List.pairwise_append]
    refine ⟨?_, hsort2, ?_⟩
    · rw [List.pairwise_append]
      refine ⟨hrs, hps, ?_⟩
      intro x hx y hy
      obtain ⟨q, hq, rfl⟩ := List.mem_map.mp hy
      exact hrp x hx q hq
    · intro x hx y hy
      obtain ⟨q, hq, rfl⟩ := List.mem_map.mp hy
      have hgq := (hid2 q hq).1
      rcases List.mem_append.mp hx with hx | hx
      · have := hrh x hx
        omega
      · obtain ⟨p, hp, rfl⟩ := List.mem_map.mp hx
        have := hph p hp
        omega
  · rw [hstopready, coe_append, coe_append]
    have hEM : (↑((chunk_window.flush_n st.window
        (st.window.tail_chunk - st.window.head_chunk).toNat).1.map chunk.chunk_id) :
        Multiset Int) = ↑(windowIds st.window) :=
      (Multiset.coe_eq_coe.mpr (hEperm.map chunk.chunk_id)).symm
    refine Multiset.ext.mpr (fun a => ?_)
    have k1 := congrArg (Multiset.count a) hap
    have k2 := congrArg (Multiset.count a) hEM
    simp only [Multiset.count_add] at k1 k2 ⊢
    omega
  · apply stop_fixed
    · show st.stop.window.tail_chunk - st.stop.window.head_chunk ≤ 0
      have e1 : st.stop.window = (chunk_window.flush_n st.window
          (st.window.tail_chunk - st.window.head_chunk).toNat).2 := rfl
      rw [e1, ht2, hhead2]
      omega
    · rfl

/-- Completing the LOSSLESS wait only ever yields chunks whose reference count
is zero. -/
theorem lossless_wait_all_zero :
    ∀ (events : List Int) (evicted out : List chunk),
      lossless_wait evicted events = some out → ∀ ch ∈ out, ch.ref_count = 0 := by
  intro events
  induction events with
  | nil =>
    intro evicted out h ch hch
    unfold lossless_wait at h
    by_cases hz : all_released evicted = true
    · rw [if_pos hz] at h
      cases h
      have := List.all_eq_true.mp hz ch hch
      exact of_decide_eq_true this
    · rw [if_neg hz] at h
      cases h
  | cons e rest ih =>
    intro evicted out h ch hch
    unfold lossless_wait at h
    by_cases hz : all_released evicted = true
    · rw [if_pos hz] at h
      cases h
      have := List.all_eq_true.mp hz ch hch
      exact of_decide_eq_true this
    · rw [if_neg hz] at h
      exact ih (apply_release evicted e) out h ch hch

/-- C1: for every execution of a chunk stream group (any interleaving of
`get_chunk` and `release_chunk`, optionally followed by `stop`), the sequence
of chunk ids passed to the ready callback is strictly ascending: every chunk
delivered after a chunk with id `k` has id greater than `k`, and every chunk
delivered before it has id less than `k`. -/
theorem C1_ready_ids_strictly_ascending :
    ∀ (cap : Nat) (ops : List GroupOp), 0 < cap →
      List.Pairwise (· < ·) (((init_state cap).run ops).readyIds) ∧
      List.Pairwise (· < ·) (((init_state cap).run ops).stop.readyIds) := by
  intro cap ops hcap
  obtain ⟨hinv, -, -, -⟩ := run_inv ops (init_state cap) (init_inv cap hcap)
  obtain ⟨hpair, -, -, -⟩ := stop_spec _ hinv
  exact ⟨hinv.ready_sorted, hpair⟩

/-- Witness for C1 on a concrete run with out-of-order releases and a window
advance (capacity 2, ids 0, 1, 2). -/
theorem C1_ready_ids_strictly_ascending_witness :
    0 < 2 ∧
    (List.Pairwise (· < ·) (((init_state 2).run
        [GroupOp.get 0, GroupOp.rel 0, GroupOp.get 1, GroupOp.get 2,
         GroupOp.rel 2, GroupOp.rel 1]).readyIds) ∧
     List.Pairwise (· < ·) (((init_state 2).run
        [GroupOp.get 0, GroupOp.rel 0, GroupOp.get 1, GroupOp.get 2,
         GroupOp.rel 2, GroupOp.rel 1]).stop.readyIds)) :=
  ⟨by decide,
   C1_ready_ids_strictly_ascending 2
     [GroupOp.get 0, GroupOp.rel 0, GroupOp.get 1, GroupOp.get 2,
      GroupOp.rel 2, GroupOp.rel 1] (by decide)⟩

/-- C2: at every observable point of any interleaving of `get_chunk` and
`release_chunk`, the window satisfies `0 ≤ tail_id − head_id ≤ max_chunks`; the
slot `chunks[c mod capacity]` holds the chunk with `chunk_id = c` if and only
if `head_id ≤ c < tail_id` and the slot is non-null; and neither `head_id` nor
`tail_id` ever decreases. -/
theorem C2_window_invariant :
    ∀ (cap : Nat) (ops more : List GroupOp), 0 < cap →
      (0 ≤ ((init_state cap).run ops).window.tail_chunk -
            ((init_state cap).run ops).window.head_chunk ∧
       ((init_state cap).run ops).window.tail_chunk -
            ((init_state cap).run ops).window.head_chunk ≤ (cap : Int)) ∧
      (∀ c : Int,
        (∃ ch, ((init_state cap).run ops).window.slot c = some ch ∧
          ch.chunk_id = c) ↔
        (((init_state cap).run ops).window.head_chunk ≤ c ∧
         c < ((init_state cap).run ops).window.tail_chunk ∧
         ((init_state cap).run ops).window.slot c ≠ none)) ∧
      ((init_state cap).run ops).window.head_chunk ≤
        ((init_state cap).run (ops ++ more)).window.head_chunk ∧
      ((init_state cap).run ops).window.tail_chunk ≤
        ((init_state cap).run (ops ++ more)).window.tail_chunk := by
  intro cap ops more hcap
  obtain ⟨hinv, -, -, hcapeq⟩ := run_inv ops (init_state cap) (init_inv cap hcap)
  obtain ⟨hcapw, hht, hspan, hok⟩ := hinv.wwf
  have hcap' : ((init_state cap).run ops).window.capacity = cap := by
    rw [hcapeq]
    simp [init_state, chunk_window.capacity]
  refine ⟨⟨by omega, by rw [hcap'] at hspan; exact hspan⟩, ?_, ?_⟩
  · intro c
    constructor
    · rintro ⟨ch, hch, rfl⟩
      obtain ⟨hge, hlt, hix⟩ := hok _ ch hch
      refine ⟨hge, hlt, ?_⟩
      rw [hch]
      simp
    · rintro ⟨h1, h2, h3⟩
      cases hsl : ((init_state cap).run ops).window.slot c with
      | none => exact absurd hsl h3
      | some ch =>
        obtain ⟨hge, hlt, hix⟩ := hok _ ch hsl
        have hcid : ch.chunk_id = c := by
          rcases le_total ch.chunk_id c with hcase | hcase
          · exact slot_index_inj _ hcapw hcase (by omega) hix
          · exact (slot_index_inj _ hcapw hcase (by omega) hix.symm).symm
        exact ⟨ch, rfl, hcid⟩
  · rw [run_append]
    obtain ⟨-, hm1, hm2, -⟩ := run_inv more ((init_state cap).run ops) hinv
    exact ⟨hm1, hm2⟩

/-- Witness for C2: capacity 2, a run that wraps the window, extended by one
more operation. -/
theorem C2_window_invariant_witness :
    0 < 2 ∧
    ((0 ≤ ((init_state 2).run [GroupOp.get 0, GroupOp.get 3]).window.tail_chunk -
          ((init_state 2).run [GroupOp.get 0, GroupOp.get 3]).window.head_chunk ∧
      ((init_state 2).run [GroupOp.get 0, GroupOp.get 3]).window.tail_chunk -
          ((init_state 2).run [GroupOp.get 0, GroupOp.get 3]).window.head_chunk ≤
        ((2 : Nat) : Int)) ∧
     (∀ c : Int,
       (∃ ch, ((init_state 2).run [GroupOp.get 0, GroupOp.get 3]).window.slot c =
          some ch ∧ ch.chunk_id = c) ↔
       (((init_state 2).run [GroupOp.get 0, GroupOp.get 3]).window.head_chunk ≤ c ∧
        c < ((init_state 2).run [GroupOp.get 0, GroupOp.get 3]).window.tail_chunk ∧
        ((init_state 2).run [GroupOp.get 0, GroupOp.get 3]).window.slot c ≠ none)) ∧
     ((init_state 2).run [GroupOp.get 0, GroupOp.get 3]).window.head_chunk ≤
       ((init_state 2).run ([GroupOp.get 0, GroupOp.get 3] ++
         [GroupOp.get 5])).window.head_chunk ∧
     ((init_state 2).run [GroupOp.get 0, GroupOp.get 3]).window.tail_chunk ≤
       ((init_state 2).run ([GroupOp.get 0, GroupOp.get 3] ++
         [GroupOp.get 5])).window.tail_chunk) :=
  ⟨by decide,
   C2_window_invariant 2 [GroupOp.get 0, GroupOp.get 3] [GroupOp.get 5] (by decide)⟩

/-- C3: on every reachable group state, `get_chunk c` returns null if and only
if `c` is below the window's head at the time of the call; otherwise it returns
a chunk with `chunk_id = c`, now installed in the (extended) window, whose
reference count is the previous slot occupant's count plus one (one when the
slot was null), the window having been advanced past `c` via `extend_to`, with
the allocate callback invoked exactly when the slot for `c` was null. -/
theorem C3_get_chunk_contract :
    ∀ (cap : Nat) (ops : List GroupOp) (c : Int), 0 < cap →
      ((((init_state cap).run ops).get_chunk c).1 = none ↔
        c < ((init_state cap).run ops).window.head_chunk) ∧
      (((init_state cap).run ops).window.head_chunk ≤ c →
        ∃ ch, (((init_state cap).run ops).get_chunk c).1 = some ch ∧
          ch.chunk_id = c ∧
          (((init_state cap).run ops).get_chunk c).2.window.lookup c = some ch ∧
          c < (((init_state cap).run ops).get_chunk c).2.window.tail_chunk ∧
          ch.ref_count =
            (match (((init_state cap).run ops).window.extend_to c).2.slot c with
             | some old => old.ref_count + 1
             | none => 1) ∧
          ((((init_state cap).run ops).window.extend_to c).2.slot c = none →
            (((init_state cap).run ops).get_chunk c).2.allocatedIds =
              ((init_state cap).run ops).allocatedIds ++ [c]) ∧
          (∀ old, (((init_state cap).run ops).window.extend_to c).2.slot c = some old →
            (((init_state cap).run ops).get_chunk c).2.allocatedIds =
              ((init_state cap).run ops).allocatedIds)) := by
  intro cap ops c hcap
  obtain ⟨hinv, -, -, -⟩ := run_inv ops (init_state cap) (init_inv cap hcap)
  have hwf := hinv.wwf
  by_cases hc : c < ((init_state cap).run ops).window.head_chunk
  · rw [get_chunk_too_old _ c hc]
    exact ⟨⟨fun _ => hc, fun _ => rfl⟩, fun hge => absurd hc (not_lt.mpr hge)⟩
  · push_neg at hc
    obtain ⟨hwf1, hh1, hhc1, hct1, ht1, hcap1, hev, hevs, hevperm⟩ :=
      extend_to_spec ((init_state cap).run ops).window c hwf hc
    obtain ⟨hid2, hwf2, hh2, ht2, hcap2, halloc2, hnoalloc2, hrc2, hslot2⟩ :=
      install_chunk_spec (((init_state cap).run ops).window.extend_to c).2 c
        hwf1 hhc1 hct1
    rw [get_chunk_in_range _ c (not_lt.mpr hc)]
    refine ⟨⟨(fun h => by cases h), fun h => absurd h (not_lt.mpr hc)⟩, fun _ => ?_⟩
    refine ⟨(install_chunk (((init_state cap).run ops).window.extend_to c).2 c).1,
      rfl, hid2, ?_, ?_, hrc2, ?_, ?_⟩
    · unfold chunk_window.lookup
      rw [if_pos ⟨by rw [hh2]; exact hhc1, by rw [ht2]; exact hct1⟩]
      have hsieq : (install_chunk (((init_state cap).run ops).window.extend_to c).2 c).2.1.slot_index c =
          ((((init_state cap).run ops).window.extend_to c).2).slot_index c := by
        unfold chunk_window.slot_index
        rw [hcap2]
      unfold chunk_window.slot
      rw [hsieq]
      exact hslot2
    · rw [ht2]
      exact hct1
    · intro hnone
      have hnone' : (((init_state cap).run ops).window.extend_to c).2.slots.getD
          ((((init_state cap).run ops).window.extend_to c).2.slot_index c) none =
          none := hnone
      have hb : (install_chunk (((init_state cap).run ops).window.extend_to c).2 c).2.2 =
          true := by
        simp only [install_chunk, hnone']
      rw [if_pos hb]
    · intro old hold
      have hold' : (((init_state cap).run ops).window.extend_to c).2.slots.getD
          ((((init_state cap).run ops).window.extend_to c).2.slot_index c) none =
          some old := hold
      have hb : (install_chunk (((init_state cap).run ops).window.extend_to c).2 c).2.2 =
          false := by
        simp only [install_chunk, hold']
      rw [if_neg (by simp [hb])]

/-- Witness for C3: the initial two-slot group, requesting chunk 5. -/
theorem C3_get_chunk_contract_witness :
    0 < 2 ∧
    (((((init_state 2).run []).get_chunk 5).1 = none ↔
        5 < ((init_state 2).run []).window.head_chunk) ∧
     (((init_state 2).run []).window.head_chunk ≤ 5 →
       ∃ ch, ((((init_state 2).run []).get_chunk 5).1 = some ch ∧
         ch.chunk_id = 5 ∧
         ((((init_state 2).run []).get_chunk 5).2.window.lookup 5 = some ch ∧
          (5 < (((init_state 2).run []).get_chunk 5).2.window.tail_chunk ∧
           (ch.ref_count =
             (match ((((init_state 2)).run []).window.extend_to 5).2.slot 5 with
              | some old => old.ref_count + 1
              | none => 1) ∧
            (((((init_state 2).run []).window.extend_to 5).2.slot 5 = none →
              ((((init_state 2).run []).get_chunk 5).2.allocatedIds =
                ((init_state 2).run []).allocatedIds ++ [5])) ∧
             ∀ old, ((((init_state 2).run []).window.extend_to 5).2.slot 5 = some old →
               ((((init_state 2).run []).get_chunk 5).2.allocatedIds =
                 ((init_state 2).run []).allocatedIds))))))))) :=
  ⟨by decide, C3_get_chunk_contract 2 [] 5 (by decide)⟩

/-- C9: `stop` is idempotent — a second `stop` after the first changes no
observable state and delivers nothing further — and across the whole execution
the ready callback is invoked exactly once for every chunk that was ever
allocated into the window, and never for any other id. -/
theorem C9_stop_idempotent_exactly_once :
    ∀ (cap : Nat) (ops : List GroupOp), 0 < cap →
      ((init_state cap).run ops).stop.stop = ((init_state cap).run ops).stop ∧
      ∀ x : Int,
        ((init_state cap).run ops).stop.readyIds.count x =
          if x ∈ ((init_state cap).run ops).allocatedIds then 1 else 0 := by
  intro cap ops hcap
  obtain ⟨hinv, -, -, -⟩ := run_inv ops (init_state cap) (init_inv cap hcap)
  obtain ⟨hpair, hmul, halloc, hfix⟩ := stop_spec _ hinv
  refine ⟨hfix, fun x => ?_⟩
  have hperm : (((init_state cap).run ops).stop.readyIds).Perm
      ((init_state cap).run ops).allocatedIds := Multiset.coe_eq_coe.mp hmul
  have hnodup : (((init_state cap).run ops).stop.readyIds).Nodup :=
    hpair.imp Int.ne_of_lt
  by_cases hmem : x ∈ ((init_state cap).run ops).allocatedIds
  · rw [if_pos hmem]
    exact List.count_eq_one_of_mem hnodup (hperm.mem_iff.mpr hmem)
  · rw [if_neg hmem]
    exact List.count_eq_zero_of_not_mem (fun h => hmem (hperm.mem_iff.mp h))

/-- Witness for C9 on a concrete run (capacity 2, ids 0, 1, 2 with eviction). -/
theorem C9_stop_idempotent_exactly_once_witness :
    0 < 2 ∧
    (((init_state 2).run [GroupOp.get 0, GroupOp.rel 0, GroupOp.get 1,
        GroupOp.get 2]).stop.stop =
      ((init_state 2).run [GroupOp.get 0, GroupOp.rel 0, GroupOp.get 1,
        GroupOp.get 2]).stop ∧
     ∀ x : Int,
       ((init_state 2).run [GroupOp.get 0, GroupOp.rel 0, GroupOp.get 1,
          GroupOp.get 2]).stop.readyIds.count x =
         if x ∈ ((init_state 2).run [GroupOp.get 0, GroupOp.rel 0, GroupOp.get 1,
           GroupOp.get 2]).allocatedIds then 1 else 0) :=
  ⟨by decide,
   C9_stop_idempotent_exactly_once 2
     [GroupOp.get 0, GroupOp.rel 0, GroupOp.get 1, GroupOp.get 2] (by decide)⟩

/-- C4: In LOSSLESS eviction mode, a chunk evicted by a window advance is never
handed to the ready path while its reference count is nonzero — whenever the
wait completes and delivers chunks, every delivered chunk has `ref_count = 0` —
and when some evicted chunk is still referenced, the advancing thread first
posts `async_flush_until` to every other member stream, whose action is to
release exactly the member's outstanding references with id below the flush
point. -/
theorem C4_lossless_never_ready_nonzero :
    ∀ (evicted : List chunk) (requester n_streams : Nat) (events : List Int),
      (∀ out, (lossless_evict evicted requester n_streams events).delivered = some out →
        ∀ ch ∈ out, ch.ref_count = 0) ∧
      ((∃ ch ∈ evicted, ch.ref_count ≠ 0) →
        (lossless_evict evicted requester n_streams events).flush_targets =
          (List.range n_streams).filter (fun i => i ≠ requester)) ∧
      (∀ (held : List Int) (c : Int),
        (member_flush_until held c).1 = held.filter (fun h => decide (h < c))) := by
  intro evicted requester n_streams events
  refine ⟨?_, ?_, fun held c => rfl⟩
  · intro out hout ch hch
    unfold lossless_evict at hout
    by_cases hz : all_released evicted = true
    · rw [if_pos hz] at hout
      simp only at hout
      cases hout
      have := List.all_eq_true.mp hz ch hch
      exact of_decide_eq_true this
    · rw [if_neg hz] at hout
      simp only at hout
      exact lossless_wait_all_zero events evicted out hout ch hch
  · intro hnz
    unfold lossless_evict
    by_cases hz : all_released evicted = true
    · exfalso
      obtain ⟨ch, hch, hne⟩ := hnz
      exact hne (of_decide_eq_true (List.all_eq_true.mp hz ch hch))
    · rw [if_neg hz]

/-- Witness for C4 at a concrete input: one evicted chunk with a live
reference, two streams, one release event. -/
theorem C4_lossless_never_ready_nonzero_witness :
    (∀ out, (lossless_evict [⟨3, 1⟩] 0 2 [3]).delivered = some out →
      ∀ ch ∈ out, ch.ref_count = 0) ∧
    ((∃ ch ∈ [(⟨3, 1⟩ : chunk)], ch.ref_count ≠ 0) →
      (lossless_evict [⟨3, 1⟩] 0 2 [3]).flush_targets =
        (List.range 2).filter (fun i => i ≠ 0)) ∧
    (∀ (held : List Int) (c : Int),
      (member_flush_until held c).1 = held.filter (fun h => decide (h < c))) :=
  C4_lossless_never_ready_nonzero [⟨3, 1⟩] 0 2 [3]

/-- C5: emplace_back appends exactly one new member stream (placed at index
`size() − 1`), increments `live_streams` by one, invokes the `stream_added`
hook on the new member, and returns a reference (index) to it. -/
theorem C5_emplace_back_adds_stream :
    ∀ (g : group_streams_state) (cc : chunk_stream_config), cc.place_set = true →
      (g.emplace_back cc).1 = Except.ok g.streams.length ∧
      (g.emplace_back cc).2.streams = g.streams ++ [{ chunk_config := cc }] ∧
      (g.emplace_back cc).2.streams.length = g.streams.length + 1 ∧
      (g.emplace_back cc).2.live_streams = g.live_streams + 1 ∧
      (g.emplace_back cc).2.events =
        g.events ++ [GroupEvent.streamAdded g.streams.length] := by
  intro g cc h
  simp [group_streams_state.emplace_back, chunk_stream_group_member.construct, h]

/-- Witness for C5 on an empty group. -/
theorem C5_emplace_back_adds_stream_witness :
    ({ place_set := true } : chunk_stream_config).place_set = true ∧
    ((({ streams := [], live_streams := 0, events := [] } :
        group_streams_state).emplace_back { place_set := true }).1 =
      Except.ok 0 ∧
     (({ streams := [], live_streams := 0, events := [] } :
        group_streams_state).emplace_back { place_set := true }).2.streams =
      [] ++ [{ chunk_config := { place_set := true } }] ∧
     (({ streams := [], live_streams := 0, events := [] } :
        group_streams_state).emplace_back { place_set := true }).2.streams.length =
      0 + 1 ∧
     (({ streams := [], live_streams := 0, events := [] } :
        group_streams_state).emplace_back { place_set := true }).2.live_streams =
      0 + 1 ∧
     (({ streams := [], live_streams := 0, events := [] } :
        group_streams_state).emplace_back { place_set := true }).2.events =
      [] ++ [GroupEvent.streamAdded 0]) :=
  ⟨rfl, C5_emplace_back_adds_stream _ _ rfl⟩

/-- C6: constructing a member stream whose chunk configuration has no place
function fails with an invalid-argument error, and the group's state is
unchanged. -/
theorem C6_emplace_back_missing_place :
    ∀ (g : group_streams_state) (cc : chunk_stream_config), cc.place_set = false →
      (g.emplace_back cc).1 = Except.error "chunk_config.place is not set" ∧
      (g.emplace_back cc).2 = g := by
  intro g cc h
  simp [group_streams_state.emplace_back, chunk_stream_group_member.construct, h]

/-- Witness for C6 on a one-member group. -/
theorem C6_emplace_back_missing_place_witness :
    ({ place_set := false } : chunk_stream_config).place_set = false ∧
    ((({ streams := [{ chunk_config := { place_set := true } }], live_streams := 1,
         events := [GroupEvent.streamAdded 0] } :
        group_streams_state).emplace_back { place_set := false }).1 =
      Except.error "chunk_config.place is not set" ∧
     (({ streams := [{ chunk_config := { place_set := true } }], live_streams := 1,
         events := [GroupEvent.streamAdded 0] } :
        group_streams_state).emplace_back { place_set := false }).2 =
      { streams := [{ chunk_config := { place_set := true } }], live_streams := 1,
        events := [GroupEvent.streamAdded 0] }) :=
  ⟨rfl, C6_emplace_back_missing_place _ _ rfl⟩

/-- C7: a default-constructed `chunk_stream_group_config` has eviction mode
LOSSY and `max_chunks = 2`, and `set_max_chunks 0` fails with an
invalid-argument error (the configuration, passed by value, is untouched on the
error path: no updated configuration is produced). -/
theorem C7_default_config_and_set_max_chunks_zero :
    default_config.eviction_mode = EvictionMode.LOSSY ∧
    default_config.max_chunks = 2 ∧
    ∀ cfg : chunk_stream_group_config,
      cfg.set_max_chunks 0 = Except.error "max_chunks cannot be 0" :=
  ⟨rfl, rfl, fun cfg => rfl⟩

/-- C8: `chunk_stream_ring_group::stop` performs, in order: stop the data ring,
stop the free ring, run the base `chunk_stream_group::stop`, and release the
graveyard's chunks on the calling thread. -/
theorem C8_ring_group_stop_order :
    ∀ rg : ring_group_state,
      (rg.stop).2 =
        [RingAction.dataRingStop, RingAction.freeRingStop,
         RingAction.baseGroupStop, RingAction.graveyardRelease rg.graveyard] ∧
      (rg.stop).1.data_ring_stopped = true ∧
      (rg.stop).1.free_ring_stopped = true ∧
      (rg.stop).1.base = rg.base.stop ∧
      (rg.stop).1.graveyard = [] :=
  fun rg => ⟨rfl, rfl, rfl, rfl, rfl⟩

/-- Witness for C8 on a concrete ring group with a non-empty graveyard. -/
theorem C8_ring_group_stop_order_witness :
    (sample_ring_group.stop).2 =
      [RingAction.dataRingStop, RingAction.freeRingStop, RingAction.baseGroupStop,
       RingAction.graveyardRelease sample_ring_group.graveyard] ∧
    (sample_ring_group.stop).1.data_ring_stopped = true ∧
    (sample_ring_group.stop).1.free_ring_stopped = true ∧
    (sample_ring_group.stop).1.base = sample_ring_group.base.stop ∧
    (sample_ring_group.stop).1.graveyard = [] :=
  C8_ring_group_stop_order sample_ring_group

/-- C10: `adjust_group_config` preserves `max_chunks` and `eviction_mode`, and
only replaces the allocate callback (with the free-ring pop) and the ready
callback (with the data-ring wrapper around the input's ready callback). -/
theorem C10_adjust_group_config_frame :
    ∀ cfg : chunk_stream_group_config,
      (adjust_group_config cfg).max_chunks = cfg.max_chunks ∧
      (adjust_group_config cfg).eviction_mode = cfg.eviction_mode ∧
      (adjust_group_config cfg).allocate = make_allocate ∧
      (adjust_group_config cfg).ready = make_ready cfg.get_ready :=
  fun cfg => ⟨rfl, rfl, rfl, rfl⟩

/-- Witness for C10 on a concrete configuration with user callbacks. -/
theorem C10_adjust_group_config_frame_witness :
    (adjust_group_config sample_config).max_chunks = sample_config.max_chunks ∧
    (adjust_group_config sample_config).eviction_mode = sample_config.eviction_mode ∧
    (adjust_group_config sample_config).allocate = make_allocate ∧
    (adjust_group_config sample_config).ready = make_ready sample_config.get_ready :=
  C10_adjust_group_config_frame sample_config

end Spead2
